import Mathlib

/-!
Verification of the fbrz rich-text tree editor (src/main.ts).

The JavaScript object graph is shallowly embedded as a heap: a finite
association list from node ids to `FiberNode` records.  Node ids are assumed
unique (as in the program, where every node is constructed with a distinct
id), so object identity coincides with id equality.  JavaScript `slice` on
strings, including its negative-index wraparound, is modelled exactly by
`jsSlice`.  Recursive walks over the heap (`findNodeByIdW`, `ancestorChain`,
`findCommon`, `traverseList`) are fuel-indexed: the JS originals recurse on
the object graph and terminate on every acyclic heap, which a large enough
fuel captures.  DOM calls (`updateRenderedValue`, `render`, `el.remove`,
selection restoration) are external to the in-memory tree and have no effect
on it, so they are omitted from the heap semantics.
-/

/-- ECMAScript index normalisation for `String.prototype.slice`: a negative
index counts from the end of the string (clamped at 0), a non-negative index
is clamped at the length. -/
def jsIndex (len : Nat) (i : Int) : Nat :=
  if i < 0 then ((len : Int) + i).toNat else min i.toNat len

/-- `s.slice(start, stop)` on a JavaScript string, modelled on `List Char`. -/
def jsSlice (s : List Char) (start stop : Int) : List Char :=
  let k := jsIndex s.length start
  let e := jsIndex s.length stop
  (s.take e).drop k

/-- One-argument `s.slice(start)`: the end index defaults to the length. -/
def jsSliceFrom (s : List Char) (start : Int) : List Char :=
  jsSlice s start (s.length : Int)

/-- `FiberNode.insertText(offset, text)` from src/main.ts:
`this.value = this.value.slice(0, offset) + text + this.value.slice(offset)`. -/
def insertText (value : List Char) (offset : Int) (text : List Char) : List Char :=
  jsSlice value 0 offset ++ text ++ jsSliceFrom value offset

/-- `FiberNode.deleteText(anchorOffset, focusOffset)` from src/main.ts: the
offsets are order-normalised; equal offsets take the backspace branch
`value.slice(0, focusOffset - 1) + value.slice(focusOffset)`, otherwise the
range branch `value.slice(0, anchorOffset) + value.slice(focusOffset)`. -/
def deleteText (value : List Char) (anchorOffset focusOffset : Int) : List Char :=
  let a := if anchorOffset > focusOffset then focusOffset else anchorOffset
  let f := if anchorOffset > focusOffset then anchorOffset else focusOffset
  if a = f then
    jsSlice value 0 (f - 1) ++ jsSliceFrom value f
  else
    jsSlice value 0 a ++ jsSliceFrom value f

/-- A `FiberNode` object from src/main.ts, minus its id (which is the key of
the heap binding holding the record): depth `layer`, text buffer `value`,
parent back-reference and ordered children, both by id. -/
structure FiberNode where
  layer : Nat
  value : List Char
  parent : Option String
  children : List String
deriving DecidableEq

/-- The JavaScript object graph: one binding per allocated `FiberNode`,
keyed by node id. -/
abbrev Heap := List (String × FiberNode)

/-- Look up the record bound to an id. -/
def hfind : Heap → String → Option FiberNode
  | [], _ => none
  | (k, n) :: t, i => if k = i then some n else hfind t i

/-- Mutate the record bound to an id (a no-op if the id is unbound). -/
def hset : Heap → String → FiberNode → Heap
  | [], _, _ => []
  | (k, m) :: t, i, n => if k = i then (k, n) :: hset t i n else (k, m) :: hset t i n

/-- Selection direction, as in the `Cursor` interface of src/main.ts. -/
inductive Dir where
  | forward
  | backward
deriving DecidableEq

/-- The `Cursor` of src/main.ts, with node references replaced by ids. -/
structure Cursor where
  anchorId : String
  anchorOffset : Int
  focusId : String
  focusOffset : Int
  direction : Dir
deriving DecidableEq

/-- `FiberNode.addChild(child, tree)` from src/main.ts, acting on the heap
and the tree counter, in source statement order: set `child.layer` to
`this.layer + 1`, set `child.parent`, increment `tree.count`, push the child
onto `this.children`.  Ids absent from the heap leave it unchanged. -/
def addChild (h : Heap) (parentId childId : String) (count : Nat) : Heap × Nat :=
  match hfind h parentId with
  | none => (h, count)
  | some p =>
    match hfind h childId with
    | none => (h, count)
    | some c =>
      let h1 := hset h childId { c with layer := p.layer + 1, parent := some parentId }
      match hfind h1 parentId with
      | none => (h1, count + 1)
      | some p1 => (hset h1 parentId { p1 with children := p1.children ++ [childId] }, count + 1)

/-- The in-memory effect of the editor calling `node.insertText` on the node
bound to `i` (the DOM update `updateRenderedValue` does not touch the heap). -/
def heapInsertText (h : Heap) (i : String) (offset : Int) (text : List Char) : Heap :=
  match hfind h i with
  | some n => hset h i { n with value := insertText n.value offset text }
  | none => h

/-- The in-memory effect of the editor calling `node.deleteText` on the node
bound to `i`. -/
def heapDeleteText (h : Heap) (i : String) (anchorOffset focusOffset : Int) : Heap :=
  match hfind h i with
  | some n => hset h i { n with value := deleteText n.value anchorOffset focusOffset }
  | none => h

/-- `FiberTree.findNodeById(id, node)` from src/main.ts: depth-first search
for the first node whose id matches, returning its id.  The recursive JS
search (self first, then each child subtree, earliest match wins) is phrased
as a worklist; fuel bounds the number of visited nodes. -/
def findNodeByIdW : Nat → Heap → String → List String → Option String
  | 0, _, _, _ => none
  | Nat.succ _, _, _, [] => none
  | Nat.succ fuel, h, target, nId :: rest =>
    if nId = target then some nId
    else
      match hfind h nId with
      | some n => findNodeByIdW fuel h target (n.children ++ rest)
      | none => findNodeByIdW fuel h target rest

/-- The `while (n) { anchorAncestors.push(n); n = n.parent; }` walk of
`FiberTree.findCommonAncestor`: the chain of ancestors of a node (itself
included), following `parent` back-references, fuel-bounded. -/
def ancestorChain : Nat → Heap → Option String → List String
  | _, _, none => []
  | 0, _, some i => [i]
  | Nat.succ fuel, h, some i => i :: ancestorChain fuel h ((hfind h i).bind FiberNode.parent)

/-- The second loop of `FiberTree.findCommonAncestor`: walk the focus node's
ancestor chain until a member of the anchor's chain is hit. -/
def findCommon : Nat → Heap → List String → Option String → Option String
  | _, _, _, none => none
  | 0, _, chain, some i => if i ∈ chain then some i else none
  | Nat.succ fuel, h, chain, some i =>
    if i ∈ chain then some i else findCommon fuel h chain ((hfind h i).bind FiberNode.parent)

/-- `FiberTree.findCommonAncestor(anchor, focus)` from src/main.ts: resolve
both ids from the root, build the anchor's ancestor chain, walk the focus
chain until it meets it. -/
def findCommonAncestor (fuel : Nat) (h : Heap) (rootId anchorId focusId : String) :
    Option String :=
  let aN := findNodeByIdW fuel h anchorId [rootId]
  let fN := findNodeByIdW fuel h focusId [rootId]
  findCommon fuel h (ancestorChain fuel h aN) fN

/-- The recursive `traverse` closure of `FiberTree.findNodesBetween`,
phrased as a worklist (pending nodes in pre-order).  Visiting a node sets the
in-range flag when its id matches the anchor, pushes it onto the accumulator
when in range and its id is not the literal `"root"`, and on matching the
focus clears the flag and skips the node's subtree; remaining siblings keep
being traversed, exactly as the JS early `return` does. -/
def traverseList : Nat → Heap → String → String → List String → Bool → List String →
    List String
  | 0, _, _, _, _, _, acc => acc
  | Nat.succ _, _, _, _, [], _, acc => acc
  | Nat.succ fuel, h, aId, fId, nId :: rest, inR, acc =>
    let inR1 := if nId = aId then true else inR
    let acc1 := if inR1 = true ∧ nId ≠ "root" then acc ++ [nId] else acc
    if nId = fId then traverseList fuel h aId fId rest false acc1
    else
      let kids := match hfind h nId with
        | some n => n.children
        | none => []
      traverseList fuel h aId fId (kids ++ rest) inR1 acc1

/-- `FiberTree.findNodesBetween(anchor, focus, direction)` from src/main.ts:
compute the common ancestor (returning `none`, the JS `undefined`, when it
cannot be resolved), swap the endpoints on a backward selection, then run the
in-range pre-order collection from the common ancestor. -/
def findNodesBetween (fuel : Nat) (h : Heap) (rootId anchorId focusId : String)
    (dir : Dir) : Option (List String) :=
  match findCommonAncestor fuel h rootId anchorId focusId with
  | none => none
  | some ca =>
    let p := if dir = Dir.backward then (focusId, anchorId) else (anchorId, focusId)
    some (traverseList fuel h p.1 p.2 [ca] false [])

/-- The in-memory effect of `FiberTree.deleteDOMNodes` from src/main.ts.
After the backward swap, when the anchor and focus ids differ the anchor's
buffer becomes `anchor.value.slice(0, anchorOffset) + focus.value.slice(focusOffset)`
and the anchor's children are replaced by the focus's children, in source
statement order.  Everything else in the function (`updateRenderedValue`,
re-rendering the anchor's parent, and the `nodes.forEach` loop removing
elements by id) acts on the DOM only and leaves the heap untouched; the
`nodes` argument is therefore unused here. -/
def deleteDOMNodesCore (h : Heap) (aId fId : String) (aOff fOff : Int) : Heap :=
  if aId ≠ fId then
    match hfind h aId, hfind h fId with
    | some a, some f =>
      let h1 := hset h aId { a with value := jsSlice a.value 0 aOff ++ jsSliceFrom f.value fOff }
      match hfind h1 aId, hfind h1 fId with
      | some a2, some f2 => hset h1 aId { a2 with children := f2.children }
      | _, _ => h1
    | _, _ => h
  else h

/-- The `if (cursorDirection === "backward")` swap at the head of
`deleteDOMNodes`: a backward run is the forward run on the swapped
endpoints and offsets. -/
def deleteDOMNodes (h : Heap) (nodes : List String) (anchorId focusId : String)
    (anchorOffset focusOffset : Int) (dir : Dir) : Heap :=
  let _ := nodes
  if dir = Dir.backward then deleteDOMNodesCore h focusId anchorId focusOffset anchorOffset
  else deleteDOMNodesCore h anchorId focusId anchorOffset focusOffset

/-- The `deleteContentBackward` range branch of the `Editor` in src/main.ts
(lines 296-329): resolve both cursor endpoints from the root, compute
`nodesInRange`, abort when it is `undefined`, otherwise run the merge and
collapse the cursor onto the surviving endpoint (`cursor.focus =
cursor.anchor` on a forward selection, the symmetric assignment on a backward
one).  A failed endpoint lookup makes the JS code throw on `anchor.id` inside
`findNodesBetween` before any mutation, so the state is returned unchanged. -/
def editorDeleteRange (fuel : Nat) (rootId : String) (h : Heap) (cur : Cursor) :
    Heap × Cursor :=
  match findNodeByIdW fuel h cur.anchorId [rootId],
      findNodeByIdW fuel h cur.focusId [rootId] with
  | some aId, some fId =>
    match findNodesBetween fuel h rootId aId fId cur.direction with
    | none => (h, cur)
    | some nodes =>
      let h2 := deleteDOMNodes h nodes aId fId cur.anchorOffset cur.focusOffset cur.direction
      let cur2 := if cur.direction = Dir.forward then
          { cur with focusId := cur.anchorId }
        else
          { cur with anchorId := cur.focusId }
      (h2, cur2)
  | _, _ => (h, cur)

/-- The `insertText` case of the `Editor`'s `onbeforeinput` handler in
src/main.ts (lines 273-279): splice the payload into the focus node at
`focusOffset`, then `this.cursor.focusOffset += 1`; the anchor offset is not
touched (the remaining statements are DOM work). -/
def editorInsertText (h : Heap) (cur : Cursor) (text : List Char) : Heap × Cursor :=
  (heapInsertText h cur.focusId cur.focusOffset text,
    { cur with focusOffset := cur.focusOffset + 1 })

/-- For a non-negative end index, `s.slice(0, k)` is `take`. -/
theorem jsSlice_zero (s : List Char) (k : Int) (hk : 0 ≤ k) :
    jsSlice s 0 k = s.take k.toNat := by
  unfold jsSlice jsIndex
  simp only [if_neg (by omega : ¬ (0 : Int) < 0), if_neg (by omega : ¬ k < 0)]
  simp only [Int.toNat_zero, Nat.zero_min, List.drop_zero]
  rcases le_total k.toNat s.length with hle | hle
  · rw [min_eq_left hle]
  · rw [min_eq_right hle, List.take_length, List.take_of_length_le hle]

/-- For a non-negative start index, the one-argument `s.slice(k)` is `drop`. -/
theorem jsSliceFrom_nonneg (s : List Char) (k : Int) (hk : 0 ≤ k) :
    jsSliceFrom s k = s.drop k.toNat := by
  unfold jsSliceFrom jsSlice jsIndex
  simp only [if_neg (by omega : ¬ (s.length : Int) < 0), if_neg (by omega : ¬ k < 0)]
  simp only [Int.toNat_natCast, min_self, List.take_length]
  rcases le_total k.toNat s.length with hle | hle
  · rw [min_eq_left hle]
  · rw [min_eq_right hle, List.drop_length, List.drop_eq_nil_of_le hle]

/-- For a non-negative offset, `insertText` is the take/splice/drop
decomposition of the buffer. -/
theorem insertText_eq (v t : List Char) (k : Int) (hk : 0 ≤ k) :
    insertText v k t = v.take k.toNat ++ t ++ v.drop k.toNat := by
  unfold insertText
  rw [jsSlice_zero v k hk, jsSliceFrom_nonneg v k hk]

/-- `hset` rewrites the binding of `i` and nothing else. -/
theorem hfind_hset (h : Heap) (i : String) (n : FiberNode) (j : String) :
    hfind (hset h i n) j = if j = i then (hfind h j).map (fun _ => n) else hfind h j := by
  induction h with
  | nil => simp [hset, hfind]
  | cons hd tl ih =>
    obtain ⟨k, m⟩ := hd
    by_cases hki : k = i
    · subst hki
      by_cases hkj : k = j
      · subst hkj
        simp [hset, hfind]
      · have hji : ¬ j = k := fun hh => hkj hh.symm
        simp [hset, hfind, hkj, hji, ih]
    · by_cases hkj : k = j
      · subst hkj
        have hji : ¬ k = i := hki
        simp [hset, hfind, hji]
      · simp [hset, hfind, hki, hkj, ih]

/-- Updating a bound id leaves the other bindings unchanged. -/
theorem hfind_hset_ne (h : Heap) (i : String) (n : FiberNode) (j : String) (hj : j ≠ i) :
    hfind (hset h i n) j = hfind h j := by
  rw [hfind_hset, if_neg hj]

/-- Updating a bound id rebinds it to the new record. -/
theorem hfind_hset_self (h : Heap) (i : String) (n m : FiberNode)
    (hm : hfind h i = some m) : hfind (hset h i n) i = some n := by
  rw [hfind_hset, if_pos rfl, hm, Option.map_some']

/-- Taking exactly the length of the left part of an append returns it. -/
theorem take_exact (a b : List Char) (n : Nat) (hn : a.length = n) :
    (a ++ b).take n = a := by
  subst hn
  exact List.take_left a b

/-- Dropping exactly the length of the left part of an append returns the rest. -/
theorem drop_exact (a b : List Char) (n : Nat) (hn : a.length = n) :
    (a ++ b).drop n = b := by
  subst hn
  exact List.drop_left a b

/-- C2: the claim states that the text-delete operation with equal offsets
removes exactly the character span before the offset, clamped at 0, and in
particular leaves the buffer unchanged when the offset is 0.  The code
disagrees: at offset 0 the backspace branch of `deleteText` computes
`value.slice(0, -1) + value.slice(0)`, and the negative index wraps to
`length - 1` under ECMAScript slice semantics, so the buffer `"abc"` becomes
`"ababc"` rather than staying `"abc"`.  This theorem evaluates the code at
the failing input. -/
theorem C2_failing_eval :
    deleteText "abc".toList 0 0 = "ababc".toList ∧ "ababc".toList ≠ "abc".toList := by
  constructor
  · decide
  · decide

/-- C8 counterexample: the claim quantifies over every inserted string `t`,
but for the empty `t` the delete span `[k, k)` is degenerate and
`deleteText`'s equal-offset branch performs a backspace instead of a no-op:
inserting `""` at offset 1 of `"ab"` and then range-deleting `[1, 1)` yields
`"b"`, not the original `"ab"`. -/
theorem C8_counterexample :
    deleteText (insertText "ab".toList 1 ([] : List Char)) 1
        (1 + ((([] : List Char).length : Int))) = "b".toList ∧
      "b".toList ≠ "ab".toList := by
  constructor
  · decide
  · decide

/-- C8 (amended): for every buffer `v`, every offset `0 ≤ k ≤ len v` and
every NON-EMPTY string `t`, inserting `t` at `k` and then range-deleting
exactly `[k, k + len t)` restores the original buffer.  (The empty-`t` case
fails, see the counterexample.) -/
theorem C8_amended (v t : List Char) (k : Int) (h0 : 0 ≤ k) (hk : k.toNat ≤ v.length)
    (ht : t ≠ []) :
    deleteText (insertText v k t) k (k + (t.length : Int)) = v := by
  have htpos : 0 < t.length := List.length_pos.mpr ht
  have hngt : ¬ k > k + (t.length : Int) := by omega
  have hne : ¬ k = k + (t.length : Int) := by omega
  simp only [deleteText, if_neg hngt, if_neg hne]
  rw [jsSlice_zero _ _ h0, jsSliceFrom_nonneg _ _ (by omega : (0 : Int) ≤ k + (t.length : Int))]
  rw [insertText_eq v t k h0]
  have hx : (v.take k.toNat).length = k.toNat := by
    rw [List.length_take]
    omega
  have htn : (k + (t.length : Int)).toNat = k.toNat + t.length := by omega
  rw [htn]
  have e1 : (v.take k.toNat ++ t ++ v.drop k.toNat).take k.toNat = v.take k.toNat := by
    rw [List.append_assoc]
    exact take_exact _ _ _ hx
  have e2 : (v.take k.toNat ++ t ++ v.drop k.toNat).drop (k.toNat + t.length) =
      v.drop k.toNat := by
    refine drop_exact _ _ _ ?_
    rw [List.length_append, hx]
  rw [e1, e2, List.take_append_drop]

/-- C8 witness: a concrete run of the amended round trip. -/
theorem C8_witness :
    (0 : Int) ≤ 1 ∧ (1 : Int).toNat ≤ "ab".toList.length ∧ "cd".toList ≠ [] ∧
      deleteText (insertText "ab".toList 1 "cd".toList) 1
        (1 + ("cd".toList.length : Int)) = "ab".toList :=
  ⟨by decide, by decide, by decide,
    C8_amended "ab".toList "cd".toList 1 (by decide) (by decide) (by decide)⟩

/-- The heap of the C3 counterexample: one node with buffer `"child1"`. -/
def hC3 : Heap := [("n", ⟨0, "child1".toList, none, []⟩)]

/-- The cursor of the C3 counterexample: collapsed at offset 0 on the node. -/
def curC3 : Cursor := ⟨"n", 0, "n", 0, Dir.forward⟩

/-- C3 counterexample: processing an insert-text intent with the two-character
payload `"ab"` on a collapsed cursor at offset 0, the code advances
`focusOffset` by 1 (to 1), not by the payload length (to 2), and leaves
`anchorOffset` at 0 instead of collapsing it onto the new `focusOffset`. -/
theorem C3_counterexample :
    (editorInsertText hC3 curC3 "ab".toList).2.focusOffset = 1 ∧
      curC3.focusOffset + ("ab".toList.length : Int) = 2 ∧
      (editorInsertText hC3 curC3 "ab".toList).2.focusOffset ≠
        curC3.focusOffset + ("ab".toList.length : Int) ∧
      (editorInsertText hC3 curC3 "ab".toList).2.anchorOffset ≠
        (editorInsertText hC3 curC3 "ab".toList).2.focusOffset := by
  refine ⟨by decide, by decide, by decide, by decide⟩

/-- C3 (amended): the insert-text intent splices the payload into the focus
node at `focusOffset` and changes no other node, the new `focusOffset` is the
old one plus 1 (regardless of the payload length), and `anchorOffset` is left
unchanged (the cursor is not collapsed in the model; the code only fixes the
visible selection through the DOM). -/
theorem C3_amended (h : Heap) (cur : Cursor) (t : List Char) (n : FiberNode)
    (hn : hfind h cur.focusId = some n) (h0 : 0 ≤ cur.focusOffset) :
    hfind (editorInsertText h cur t).1 cur.focusId =
      some { n with value := n.value.take cur.focusOffset.toNat ++ t ++
        n.value.drop cur.focusOffset.toNat } ∧
    (∀ j, j ≠ cur.focusId → hfind (editorInsertText h cur t).1 j = hfind h j) ∧
    (editorInsertText h cur t).2.focusOffset = cur.focusOffset + 1 ∧
    (editorInsertText h cur t).2.anchorOffset = cur.anchorOffset := by
  simp only [editorInsertText, heapInsertText, hn]
  refine ⟨?_, ?_, by simp, by simp⟩
  · rw [hfind_hset_self h cur.focusId _ n hn, insertText_eq n.value t cur.focusOffset h0]
  · intro j hj
    exact hfind_hset_ne h cur.focusId _ j hj

/-- C3 witness: a concrete run of the amended statement. -/
theorem C3_witness :
    hfind hC3 curC3.focusId = some ⟨0, "child1".toList, none, []⟩ ∧
      hfind (editorInsertText hC3 curC3 "x".toList).1 curC3.focusId =
        some ⟨0, ("child1".toList.take (0 : Int).toNat ++ "x".toList ++
          "child1".toList.drop (0 : Int).toNat), none, []⟩ ∧
      (editorInsertText hC3 curC3 "x".toList).2.focusOffset = curC3.focusOffset + 1 :=
  ⟨by decide,
    (C3_amended hC3 curC3 "x".toList ⟨0, "child1".toList, none, []⟩ (by decide) (by decide)).1,
    (C3_amended hC3 curC3 "x".toList ⟨0, "child1".toList, none, []⟩ (by decide) (by decide)).2.2.1⟩

/-- The heap of the C4 example: an empty root and one unattached node. -/
def hC4 : Heap := [("root", ⟨0, "root".toList, none, []⟩), ("c", ⟨0, "x".toList, none, []⟩)]

/-- C4 counterexample: the claim says the attach operation assigns the child
an order value taken from the tree's monotonic counter.  It does not: the
only interaction with the counter in `addChild` is `tree.count += 1`, and
nothing derived from the counter is stored in any node (a `FiberNode` has no
order field), so attaching under counter 0 and attaching under counter 100
produce identical trees while the counters differ.  No `A.order < B.order`
ancestor comparison is therefore established by the code. -/
theorem C4_counterexample :
    (addChild hC4 "root" "c" 0).1 = (addChild hC4 "root" "c" 100).1 ∧
      (addChild hC4 "root" "c" 0).2 ≠ (addChild hC4 "root" "c" 100).2 := by
  constructor
  · decide
  · decide

/-- C4 (amended): `addChild` appends the child to the parent's children
sequence, sets the child's parent back-reference, sets the child's layer to
`parent.layer + 1`, changes no other node, and increments the tree's counter
by 1; but it assigns the child no order value: the resulting heap does not
depend on the counter at all. -/
theorem C4_amended (h : Heap) (parentId childId : String) (count : Nat)
    (p c : FiberNode) (hp : hfind h parentId = some p) (hc : hfind h childId = some c)
    (hne : parentId ≠ childId) :
    hfind (addChild h parentId childId count).1 childId =
      some { c with layer := p.layer + 1, parent := some parentId } ∧
    hfind (addChild h parentId childId count).1 parentId =
      some { p with children := p.children ++ [childId] } ∧
    (∀ j, j ≠ parentId → j ≠ childId →
      hfind (addChild h parentId childId count).1 j = hfind h j) ∧
    (addChild h parentId childId count).2 = count + 1 ∧
    (∀ count2, (addChild h parentId childId count2).1 = (addChild h parentId childId count).1) := by
  have hcne : childId ≠ parentId := fun hh => hne hh.symm
  have hp1 : hfind (hset h childId { c with layer := p.layer + 1, parent := some parentId })
      parentId = some p := (hfind_hset_ne h childId _ parentId hne).trans hp
  have key : ∀ cnt : Nat, addChild h parentId childId cnt =
      (hset (hset h childId { c with layer := p.layer + 1, parent := some parentId }) parentId
        { p with children := p.children ++ [childId] }, cnt + 1) := by
    intro cnt
    simp only [addChild, hp, hc, hp1]
  refine ⟨?_, ?_, ?_, ?_, ?_⟩
  · rw [key count]
    rw [hfind_hset_ne _ parentId _ childId hcne]
    exact hfind_hset_self h childId _ c hc
  · rw [key count]
    exact hfind_hset_self _ parentId _ p hp1
  · intro j hjp hjc
    rw [key count]
    rw [hfind_hset_ne _ parentId _ j hjp]
    exact hfind_hset_ne h childId _ j hjc
  · rw [key count]
  · intro count2
    rw [key count, key count2]

/-- C4 witness: a concrete attach under counter 5. -/
theorem C4_witness :
    hfind (addChild hC4 "root" "c" 5).1 "c" = some ⟨1, "x".toList, some "root", []⟩ ∧
      hfind (addChild hC4 "root" "c" 5).1 "root" = some ⟨0, "root".toList, none, ["c"]⟩ ∧
      (addChild hC4 "root" "c" 5).2 = 6 :=
  ⟨(C4_amended hC4 "root" "c" 5 ⟨0, "root".toList, none, []⟩ ⟨0, "x".toList, none, []⟩
      (by decide) (by decide) (by decide)).1,
    (C4_amended hC4 "root" "c" 5 ⟨0, "root".toList, none, []⟩ ⟨0, "x".toList, none, []⟩
      (by decide) (by decide) (by decide)).2.1,
    (C4_amended hC4 "root" "c" 5 ⟨0, "root".toList, none, []⟩ ⟨0, "x".toList, none, []⟩
      (by decide) (by decide) (by decide)).2.2.2.1⟩

/-- A successful `findNodeById` search returns the id it was searching for. -/
theorem findNodeByIdW_target (fuel : Nat) (h : Heap) (target : String) :
    ∀ (l : List String) (k : String), findNodeByIdW fuel h target l = some k → k = target := by
  induction fuel with
  | zero =>
    intro l k hk
    simp [findNodeByIdW] at hk
  | succ fuel ih =>
    intro l k hk
    cases l with
    | nil => simp [findNodeByIdW] at hk
    | cons nId rest =>
      rw [findNodeByIdW] at hk
      by_cases hn : nId = target
      · rw [if_pos hn] at hk
        cases hk
        exact hn
      · rw [if_neg hn] at hk
        cases hfn : hfind h nId with
        | some n =>
          rw [hfn] at hk
          exact ih _ _ hk
        | none =>
          rw [hfn] at hk
          exact ih _ _ hk

/-- An exhausted worklist returns the accumulator unchanged. -/
theorem traverseList_nil (fuel : Nat) (h : Heap) (aId fId : String) (inR : Bool)
    (acc : List String) : traverseList fuel h aId fId [] inR acc = acc := by
  cases fuel with
  | zero => rw [traverseList]
  | succ fuel => rw [traverseList]

/-- Pushing a non-`"root"` id onto an accumulator free of `"root"` keeps it
free of `"root"`. -/
theorem root_not_mem_push (b : Bool) (nId : String) (acc : List String)
    (hacc : "root" ∉ acc) :
    "root" ∉ (if b = true ∧ nId ≠ "root" then acc ++ [nId] else acc) := by
  split
  next hcond =>
    intro hmem
    rcases List.mem_append.mp hmem with hm | hm
    · exact hacc hm
    · exact hcond.2 (List.mem_singleton.mp hm).symm
  next => exact hacc

/-- The in-range collection never pushes the id `"root"`: every push is
guarded by `n.id !== "root"`. -/
theorem root_not_mem_traverseList (fuel : Nat) (h : Heap) (aId fId : String) :
    ∀ (l : List String) (inR : Bool) (acc : List String),
      "root" ∉ acc → "root" ∉ traverseList fuel h aId fId l inR acc := by
  induction fuel with
  | zero =>
    intro l inR acc hacc
    rw [traverseList]
    exact hacc
  | succ fuel ih =>
    intro l inR acc hacc
    cases l with
    | nil =>
      rw [traverseList]
      exact hacc
    | cons nId rest =>
      rw [traverseList]
      have hacc1 := root_not_mem_push (if nId = aId then true else inR) nId acc hacc
      split
      · exact ih _ _ _ hacc1
      · exact ih _ _ _ hacc1

/-- C6 (amended): the node with id `"root"` is excluded from the ordered
range enumeration unconditionally — also when it is one of the two
endpoints.  (The claim's exception for root endpoints does not exist in the
code, see the counterexample.) -/
theorem C6_amended (fuel : Nat) (h : Heap) (rootId aId fId : String) (dir : Dir)
    (r : List String) (hr : findNodesBetween fuel h rootId aId fId dir = some r) :
    "root" ∉ r := by
  rw [findNodesBetween] at hr
  cases hca : findCommonAncestor fuel h rootId aId fId with
  | none =>
    rw [hca] at hr
    cases hr
  | some ca =>
    rw [hca] at hr
    simp only [Option.some.injEq] at hr
    subst hr
    exact root_not_mem_traverseList fuel h _ _ _ false []
      (by simp)

/-- The heap of the C6/C7 examples: a root (id `"root"`) with two children. -/
def hC6 : Heap := [
  ("root", ⟨0, "root".toList, none, ["a", "b"]⟩),
  ("a", ⟨1, "A".toList, some "root", []⟩),
  ("b", ⟨1, "B".toList, some "root", []⟩)]

/-- C6 counterexample: the claim says the root appears in the result when it
is itself an endpoint.  Querying with the root as anchor endpoint: the root
is in the tree and is an endpoint, yet the collected range `["a", "b"]` does
not contain it. -/
theorem C6_counterexample :
    findNodeByIdW 10 hC6 "root" ["root"] = some "root" ∧
      findNodesBetween 10 hC6 "root" "root" "b" Dir.forward = some ["a", "b"] ∧
      "root" ∉ (["a", "b"] : List String) := by
  refine ⟨by decide, by decide, by decide⟩

/-- C6 witness: a concrete query whose result provably omits `"root"`. -/
theorem C6_witness :
    findNodesBetween 10 hC6 "root" "a" "b" Dir.forward = some ["a", "b"] ∧
      "root" ∉ (["a", "b"] : List String) :=
  ⟨by decide, C6_amended 10 hC6 "root" "a" "b" Dir.forward ["a", "b"] (by decide)⟩

/-- C7 counterexample: the claim says `nodesBetween(X, X) = [X]` for every
node `X` in the tree, but for `X` the root the result is empty: the root is
found in the tree, yet the enumeration with both endpoints equal to it
returns `[]`, not `[root]`. -/
theorem C7_counterexample :
    findNodeByIdW 10 hC6 "root" ["root"] = some "root" ∧
      findNodesBetween 10 hC6 "root" "root" "root" Dir.forward = some [] ∧
      some ([] : List String) ≠ some ["root"] := by
  refine ⟨by decide, by decide, by decide⟩

/-- C7 (amended): for every node `X` present in the tree whose id is not the
literal `"root"`, the ordered range enumeration with both endpoints `X`
returns exactly `[X]`, in either direction.  (For the root itself the result
is empty, see the counterexample.) -/
theorem C7_amended (fuel : Nat) (h : Heap) (rootId X : String) (dir : Dir)
    (hfuel : 1 ≤ fuel) (hX : findNodeByIdW fuel h X [rootId] = some X)
    (hroot : X ≠ "root") :
    findNodesBetween fuel h rootId X X dir = some [X] := by
  obtain ⟨m, rfl⟩ : ∃ m, fuel = m + 1 := ⟨fuel - 1, by omega⟩
  have hca : findCommonAncestor (m + 1) h rootId X X = some X := by
    rw [findCommonAncestor]
    simp only [hX]
    rw [ancestorChain, findCommon]
    simp [List.mem_cons]
  simp only [findNodesBetween, hca]
  have hswap : (if dir = Dir.backward then (X, X) else (X, X)) = (X, X) := by
    cases dir <;> rfl
  rw [hswap]
  have htail : traverseList (m + 1) h X X [X] false [] = [X] := by
    simp [traverseList, hroot, traverseList_nil]
  rw [htail]

/-- C7 witness: a concrete single-node range query. -/
theorem C7_witness :
    findNodesBetween 10 hC6 "root" "b" "b" Dir.forward = some ["b"] :=
  C7_amended 10 hC6 "root" "b" Dir.forward (by omega) (by decide) (by decide)

/-- Two consecutive writes to the same id collapse to the last one. -/
theorem hset_hset (h : Heap) (i : String) (x y : FiberNode) :
    hset (hset h i x) i y = hset h i y := by
  induction h with
  | nil => rfl
  | cons hd tl ih =>
    obtain ⟨k, m⟩ := hd
    by_cases hk : k = i
    · simp [hset, hk, ih]
    · simp [hset, hk, ih]

/-- Evaluation of the merge core when both endpoints resolve: the anchor's
record gets the spliced buffer and the focus's children; nothing else moves. -/
theorem deleteDOMNodesCore_eq (h : Heap) (aId fId : String) (aOff fOff : Int)
    (a f : FiberNode) (hne : aId ≠ fId) (ha : hfind h aId = some a)
    (hf : hfind h fId = some f) :
    deleteDOMNodesCore h aId fId aOff fOff =
      hset h aId { a with value := jsSlice a.value 0 aOff ++ jsSliceFrom f.value fOff,
                          children := f.children } := by
  have hfa : fId ≠ aId := fun hh => hne hh.symm
  have h1a := hfind_hset_self h aId
    { a with value := jsSlice a.value 0 aOff ++ jsSliceFrom f.value fOff } a ha
  have h1f : hfind (hset h aId
      { a with value := jsSlice a.value 0 aOff ++ jsSliceFrom f.value fOff }) fId = some f :=
    (hfind_hset_ne h aId _ fId hfa).trans hf
  simp only [deleteDOMNodesCore, if_pos hne, ha, hf, h1a, h1f, hset_hset]

/-- The heap of the C1/C10 examples: the demo document of src/main.ts with a
grandchild under `c1.2`. -/
def hC1 : Heap := [
  ("root", ⟨0, "root".toList, none, ["c1", "c2"]⟩),
  ("c1", ⟨1, "child1".toList, some "root", ["c1.1", "c1.2"]⟩),
  ("c1.1", ⟨2, "child1.1".toList, some "c1", []⟩),
  ("c1.2", ⟨2, "child1.2".toList, some "c1", ["c1.2.1"]⟩),
  ("c1.2.1", ⟨3, "child1.2.1".toList, some "c1.2", []⟩),
  ("c2", ⟨1, "child2".toList, some "root", []⟩)]

/-- C1 counterexample: selecting from the end of `c1.1` to the start of its
sibling `c1.2`, the computed `nodesInRange` is `[c1.1, c1.2]` and the claim
requires `c1.2` (the focus node, distinct from the surviving anchor `c1.1`)
to be detached from its parent's children.  After the procedure, `c1`'s
in-memory children are still `[c1.1, c1.2]`: the focus node was removed from
the rendered DOM only, never from the in-memory tree. -/
theorem C1_counterexample :
    findNodesBetween 20 hC1 "root" "c1.1" "c1.2" Dir.forward = some ["c1.1", "c1.2"] ∧
      "c1.2" ≠ "c1.1" ∧
      (hfind (deleteDOMNodes hC1 ["c1.1", "c1.2"] "c1.1" "c1.2" 8 0 Dir.forward) "c1").map
        FiberNode.children = some ["c1.1", "c1.2"] := by
  refine ⟨by decide, by decide, by decide⟩

/-- C1 (amended): the in-memory effect of the range delete & merge touches
only the (direction-normalised) anchor binding — a backward run equals the
forward run on swapped arguments, every id other than the anchor keeps its
record (so no node in `nodesInRange` other than the anchor, the focus
included, is detached from its parent's children; only the anchor's former
children lose their slot when the anchor's children are overwritten by the
focus's), and the anchor's record becomes the spliced buffer plus the
focus's children.  Node removal happens in the rendered DOM only. -/
theorem C1_amended (h : Heap) (nodes : List String) (aId fId : String) (aOff fOff : Int) :
    (deleteDOMNodes h nodes aId fId aOff fOff Dir.backward =
      deleteDOMNodes h nodes fId aId fOff aOff Dir.forward) ∧
    (∀ j, j ≠ aId →
      hfind (deleteDOMNodes h nodes aId fId aOff fOff Dir.forward) j = hfind h j) ∧
    (∀ a f, aId ≠ fId → hfind h aId = some a → hfind h fId = some f →
      hfind (deleteDOMNodes h nodes aId fId aOff fOff Dir.forward) aId =
        some { a with value := jsSlice a.value 0 aOff ++ jsSliceFrom f.value fOff,
                      children := f.children }) := by
  refine ⟨rfl, ?_, ?_⟩
  · intro j hj
    show hfind (deleteDOMNodesCore h aId fId aOff fOff) j = hfind h j
    by_cases hne : aId ≠ fId
    · cases ha : hfind h aId with
      | none => simp only [deleteDOMNodesCore, if_pos hne, ha]
      | some a =>
        cases hf : hfind h fId with
        | none => simp only [deleteDOMNodesCore, if_pos hne, ha, hf]
        | some f =>
          rw [deleteDOMNodesCore_eq h aId fId aOff fOff a f hne ha hf]
          exact hfind_hset_ne h aId _ j hj
    · simp only [deleteDOMNodesCore, if_neg hne]
  · intro a f hne ha hf
    show hfind (deleteDOMNodesCore h aId fId aOff fOff) aId = _
    rw [deleteDOMNodesCore_eq h aId fId aOff fOff a f hne ha hf]
    exact hfind_hset_self h aId _ a ha

/-- C1 witness: the concrete merge run of the counterexample scenario,
through the amended theorem. -/
theorem C1_witness :
    hfind (deleteDOMNodes hC1 ["c1.1", "c1.2"] "c1.1" "c1.2" 8 0 Dir.forward) "c1" =
      hfind hC1 "c1" ∧
    hfind (deleteDOMNodes hC1 ["c1.1", "c1.2"] "c1.1" "c1.2" 8 0 Dir.forward) "c1.1" =
      some ⟨2, "child1.1child1.2".toList, some "c1", ["c1.2.1"]⟩ :=
  ⟨(C1_amended hC1 ["c1.1", "c1.2"] "c1.1" "c1.2" 8 0).2.1 "c1" (by decide),
    ((C1_amended hC1 ["c1.1", "c1.2"] "c1.1" "c1.2" 8 0).2.2
      ⟨2, "child1.1".toList, some "c1", []⟩ ⟨2, "child1.2".toList, some "c1", ["c1.2.1"]⟩
      (by decide) (by decide) (by decide)).trans (by decide)⟩

/-- C10: in a (direction-normalised) range delete & merge with distinct
anchor and focus, every child transplanted from the focus onto the surviving
anchor keeps its parent back-reference untouched: after the merge the child
sits in the anchor's children sequence while its `parent` field still names
the focus node, not the surviving anchor. -/
theorem C10_stale_parent (h : Heap) (nodes : List String) (aId fId : String)
    (aOff fOff : Int) (a f cRec : FiberNode) (c : String)
    (hne : aId ≠ fId) (ha : hfind h aId = some a) (hf : hfind h fId = some f)
    (hcmem : c ∈ f.children) (hca : c ≠ aId) (hcrec : hfind h c = some cRec)
    (hpar : cRec.parent = some fId) :
    ∃ a2, hfind (deleteDOMNodes h nodes aId fId aOff fOff Dir.forward) aId = some a2 ∧
      a2.children = f.children ∧ c ∈ a2.children ∧
      hfind (deleteDOMNodes h nodes aId fId aOff fOff Dir.forward) c = some cRec ∧
      cRec.parent = some fId ∧ some fId ≠ some aId := by
  refine ⟨{ a with value := jsSlice a.value 0 aOff ++ jsSliceFrom f.value fOff,
                   children := f.children }, ?_, rfl, hcmem, ?_, hpar, ?_⟩
  · show hfind (deleteDOMNodesCore h aId fId aOff fOff) aId = _
    rw [deleteDOMNodesCore_eq h aId fId aOff fOff a f hne ha hf]
    exact hfind_hset_self h aId _ a ha
  · show hfind (deleteDOMNodesCore h aId fId aOff fOff) c = some cRec
    rw [deleteDOMNodesCore_eq h aId fId aOff fOff a f hne ha hf]
    exact (hfind_hset_ne h aId _ c hca).trans hcrec
  · intro hh
    exact hne (Option.some.inj hh).symm

/-- C10 witness: merging `c1.1` with `c1.2` in the demo tree, the grandchild
`c1.2.1` is transplanted onto `c1.1` but its parent field still names
`c1.2`. -/
theorem C10_witness :
    ∃ a2, hfind (deleteDOMNodes hC1 ["c1.1", "c1.2"] "c1.1" "c1.2" 8 0 Dir.forward)
        "c1.1" = some a2 ∧
      a2.children = (⟨2, "child1.2".toList, some "c1", ["c1.2.1"]⟩ : FiberNode).children ∧
      "c1.2.1" ∈ a2.children ∧
      hfind (deleteDOMNodes hC1 ["c1.1", "c1.2"] "c1.1" "c1.2" 8 0 Dir.forward) "c1.2.1" =
        some ⟨3, "child1.2.1".toList, some "c1.2", []⟩ ∧
      (⟨3, "child1.2.1".toList, some "c1.2", []⟩ : FiberNode).parent = some "c1.2" ∧
      some "c1.2" ≠ some "c1.1" :=
  C10_stale_parent hC1 ["c1.1", "c1.2"] "c1.1" "c1.2" 8 0
    ⟨2, "child1.1".toList, some "c1", []⟩ ⟨2, "child1.2".toList, some "c1", ["c1.2.1"]⟩
    ⟨3, "child1.2.1".toList, some "c1.2", []⟩ "c1.2.1"
    (by decide) (by decide) (by decide) (by decide) (by decide) (by decide) (by decide)

/-- C9: if the common ancestor of the two selection endpoints cannot be
resolved, the whole range delete & merge aborts with no mutation of the
in-memory tree: `findNodesBetween` returns the JS `undefined`, the editor
returns before `deleteDOMNodes`, and the heap is returned unchanged — no
node's text, children or parent changes. -/
theorem C9_abort_no_mutation (fuel : Nat) (rootId : String) (h : Heap) (cur : Cursor)
    (hca : findCommonAncestor fuel h rootId cur.anchorId cur.focusId = none) :
    (editorDeleteRange fuel rootId h cur).1 = h := by
  cases hfa : findNodeByIdW fuel h cur.anchorId [rootId] with
  | none => simp [editorDeleteRange, hfa]
  | some aId =>
    cases hff : findNodeByIdW fuel h cur.focusId [rootId] with
    | none => simp [editorDeleteRange, hfa, hff]
    | some fId =>
      have haId : aId = cur.anchorId := findNodeByIdW_target fuel h _ _ _ hfa
      have hfId : fId = cur.focusId := findNodeByIdW_target fuel h _ _ _ hff
      subst haId
      subst hfId
      have hnb : findNodesBetween fuel h rootId cur.anchorId cur.focusId cur.direction =
          none := by
        simp only [findNodesBetween, hca]
      simp [editorDeleteRange, hfa, hff, hnb]

/-- The heap of the C9 witness: node `a` is in the root's children but its
parent back-reference is broken (`null`), so the ancestor chains of `a` and
`b` never meet. -/
def hC9 : Heap := [
  ("root", ⟨0, "root".toList, none, ["a", "b"]⟩),
  ("a", ⟨1, "A".toList, none, []⟩),
  ("b", ⟨1, "B".toList, some "root", []⟩)]

/-- The cursor of the C9 witness: a range selection from `a` to `b`. -/
def curC9 : Cursor := ⟨"a", 0, "b", 0, Dir.forward⟩

/-- C9 witness: on the broken heap the common ancestor is unresolvable and
the editor's range-delete branch returns the heap unchanged. -/
theorem C9_witness :
    findCommonAncestor 10 hC9 "root" curC9.anchorId curC9.focusId = none ∧
      (editorDeleteRange 10 "root" hC9 curC9).1 = hC9 :=
  ⟨by decide, C9_abort_no_mutation 10 "root" hC9 curC9 (by decide)⟩

/-- Reachability from a node by following `children` references, as the
spec's "reachable from root". -/
inductive Reach (h : Heap) (i : String) : String → Prop
  | refl : Reach h i i
  | step {j c : String} {n : FiberNode} : Reach h i j → hfind h j = some n →
      c ∈ n.children → Reach h i c

/-- The spec's per-node layer equation `N.layer == N.parent.layer + 1`,
read off the node's `parent` back-reference. -/
def layerOkAt (h : Heap) (j : String) : Prop :=
  ∀ n, hfind h j = some n →
    ∃ q qn, n.parent = some q ∧ hfind h q = some qn ∧ n.layer = qn.layer + 1

/-- The spec's layer invariant: every non-root node reachable from the root
satisfies the layer equation. -/
def layerInv (h : Heap) (rootId : String) : Prop :=
  ∀ j, Reach h rootId j → j ≠ rootId → layerOkAt h j

/-- Transfer a `some` binding across heaps whose bindings agree under a
projection. -/
theorem map_eq_some {α : Type} (g : FiberNode → α) {o1 o2 : Option FiberNode}
    (hmap : o1.map g = o2.map g) {n : FiberNode} (h1 : o1 = some n) :
    ∃ m, o2 = some m ∧ g m = g n := by
  subst h1
  cases o2 with
  | none => simp at hmap
  | some m =>
    refine ⟨m, rfl, ?_⟩
    have hg : g n = g m := by simpa using hmap
    exact hg.symm

/-- The layer equation at a node transfers between heaps that agree on every
binding's layer and parent fields. -/
theorem layerOkAt_congr (h h2 : Heap) (j : String)
    (hall : ∀ i, (hfind h2 i).map (fun n => (n.layer, n.parent)) =
      (hfind h i).map (fun n => (n.layer, n.parent)))
    (hOk : layerOkAt h j) : layerOkAt h2 j := by
  intro n2 hn2
  obtain ⟨n, hn, hg⟩ := map_eq_some _ (hall j) hn2
  obtain ⟨q, qn, hq, hqn, hl⟩ := hOk n hn
  obtain ⟨qn2, hq2, hgq⟩ := map_eq_some _ (hall q).symm hqn
  have hlay : n.layer = n2.layer := congrArg Prod.fst hg
  have hpar : n.parent = n2.parent := congrArg Prod.snd hg
  have hqlay : qn2.layer = qn.layer := congrArg Prod.fst hgq
  refine ⟨q, qn2, ?_, hq2, ?_⟩
  · rw [← hpar]
    exact hq
  · rw [← hlay, hqlay]
    exact hl

/-- Reachability transfers between heaps that agree on every binding's
children. -/
theorem reach_congr_children (h h2 : Heap) (r : String)
    (hall : ∀ i, (hfind h2 i).map FiberNode.children =
      (hfind h i).map FiberNode.children) :
    ∀ x, Reach h2 r x → Reach h r x := by
  intro x hx
  induction hx with
  | refl => exact Reach.refl
  | @step j c n hr hf hc ih =>
    obtain ⟨m, hm, hgm⟩ := map_eq_some FiberNode.children (hall j) hf
    refine Reach.step ih hm ?_
    rw [hgm]
    exact hc

/-- Reachability after the merge step (only the anchor's binding changed,
its children overwritten by `fkids`) pulls back to the original heap when
every id in `fkids` was already reachable there. -/
theorem reach_transport (h h2 : Heap) (r aid : String) (fkids : List String)
    (hframe : ∀ j, j ≠ aid → hfind h2 j = hfind h j)
    (ha2 : ∀ n2, hfind h2 aid = some n2 → n2.children = fkids)
    (hsrc : ∀ c, c ∈ fkids → Reach h r c) :
    ∀ x, Reach h2 r x → Reach h r x := by
  intro x hx
  induction hx with
  | refl => exact Reach.refl
  | @step j c n hr hf hc ih =>
    by_cases hj : j = aid
    · subst hj
      have hk := ha2 n hf
      rw [hk] at hc
      exact hsrc c hc
    · rw [hframe j hj] at hf
      exact Reach.step ih hf hc

/-- Reachability after attaching `cid` under `pid` (the child's record
carries no children, the parent's gained exactly `cid`) pulls back to the
original heap or ends at the new child. -/
theorem reach_transport_attach (h h2 : Heap) (r pid cid : String) (p : FiberNode)
    (hp : hfind h pid = some p)
    (hframe : ∀ j, j ≠ pid → j ≠ cid → hfind h2 j = hfind h j)
    (hpc : ∀ n2, hfind h2 pid = some n2 → n2.children = p.children ++ [cid])
    (hcc : ∀ n2, hfind h2 cid = some n2 → n2.children = []) :
    ∀ x, Reach h2 r x → Reach h r x ∨ x = cid := by
  intro x hx
  induction hx with
  | refl => exact Or.inl Reach.refl
  | @step j c n hr hf hc ih =>
    rcases ih with hjr | hjc
    · by_cases hjcid : j = cid
      · subst hjcid
        rw [hcc n hf] at hc
        exact absurd hc (List.not_mem_nil c)
      · by_cases hjpid : j = pid
        · subst hjpid
          rw [hpc n hf] at hc
          rcases List.mem_append.mp hc with hcm | hcm
          · exact Or.inl (Reach.step hjr hp hcm)
          · exact Or.inr (List.mem_singleton.mp hcm)
        · rw [hframe j hjpid hjcid] at hf
          exact Or.inl (Reach.step hjr hf hc)
    · subst hjc
      rw [hcc n hf] at hc
      exact absurd hc (List.not_mem_nil c)

/-- A value-only rewrite of one binding preserves the layer invariant. -/
theorem layerInv_set_value (h : Heap) (rootId i : String) (n : FiberNode) (v : List Char)
    (hn : hfind h i = some n) (hinv : layerInv h rootId) :
    layerInv (hset h i { n with value := v }) rootId := by
  have hall_lp : ∀ x, (hfind (hset h i { n with value := v }) x).map
      (fun m => (m.layer, m.parent)) = (hfind h x).map (fun m => (m.layer, m.parent)) := by
    intro x
    by_cases hx : x = i
    · subst hx
      rw [hfind_hset_self h x _ n hn, hn]
      rfl
    · rw [hfind_hset_ne h i _ x hx]
  have hall_c : ∀ x, (hfind (hset h i { n with value := v }) x).map FiberNode.children =
      (hfind h x).map FiberNode.children := by
    intro x
    by_cases hx : x = i
    · subst hx
      rw [hfind_hset_self h x _ n hn, hn]
      rfl
    · rw [hfind_hset_ne h i _ x hx]
  intro j hreach hjroot
  exact layerOkAt_congr h _ j hall_lp
    (hinv j (reach_congr_children h _ rootId hall_c j hreach) hjroot)

/-- The merge core preserves the layer invariant: it changes no layer or
parent field, and with the focus endpoint reachable the reachable set does
not grow. -/
theorem layerInv_core (h : Heap) (rootId aId fId : String) (aOff fOff : Int)
    (hinv : layerInv h rootId) (hfocus : Reach h rootId fId) :
    layerInv (deleteDOMNodesCore h aId fId aOff fOff) rootId := by
  by_cases hne : aId ≠ fId
  · cases ha : hfind h aId with
    | none =>
      simp only [deleteDOMNodesCore, if_pos hne, ha]
      exact hinv
    | some a =>
      cases hf : hfind h fId with
      | none =>
        simp only [deleteDOMNodesCore, if_pos hne, ha, hf]
        exact hinv
      | some f =>
        rw [deleteDOMNodesCore_eq h aId fId aOff fOff a f hne ha hf]
        have hframe : ∀ j, j ≠ aId → hfind (hset h aId
            { a with value := jsSlice a.value 0 aOff ++ jsSliceFrom f.value fOff,
                     children := f.children }) j = hfind h j :=
          fun j hj => hfind_hset_ne h aId _ j hj
        have ha2 : ∀ n2, hfind (hset h aId
            { a with value := jsSlice a.value 0 aOff ++ jsSliceFrom f.value fOff,
                     children := f.children }) aId = some n2 → n2.children = f.children := by
          intro n2 hn2
          rw [hfind_hset_self h aId _ a ha] at hn2
          cases hn2
          rfl
        have hsrc : ∀ cc, cc ∈ f.children → Reach h rootId cc :=
          fun cc hcc => Reach.step hfocus hf hcc
        have hall_lp : ∀ x, (hfind (hset h aId
            { a with value := jsSlice a.value 0 aOff ++ jsSliceFrom f.value fOff,
                     children := f.children }) x).map (fun m => (m.layer, m.parent)) =
            (hfind h x).map (fun m => (m.layer, m.parent)) := by
          intro x
          by_cases hx : x = aId
          · subst hx
            rw [hfind_hset_self h x _ a ha, ha]
            rfl
          · rw [hfind_hset_ne h aId _ x hx]
        intro j hreach hjroot
        have hjr : Reach h rootId j :=
          reach_transport h _ rootId aId f.children hframe ha2 hsrc j hreach
        exact layerOkAt_congr h _ j hall_lp (hinv j hjr hjroot)
  · simp only [deleteDOMNodesCore, if_neg hne]
    exact hinv

/-- C5 (amended): the layer invariant (`N.layer = N.parent.layer + 1` for
every non-root node reachable from the root) is preserved by the mutations
with provisos.  Attaching preserves it only for a childless, freshly
constructed node (one that no reachable node's parent field names) —
`addChild` sets the attached child's layer but never relayers a subtree, so
attaching a node that already has children breaks the invariant (see the
counterexample).  Text insertion and single-character deletion touch only a
buffer and always preserve it.  The range delete & merge changes no layer or
parent field and preserves it whenever the (direction-normalised) focus
endpoint is reachable from the root. -/
theorem C5_amended (h : Heap) (rootId : String) (hinv : layerInv h rootId) :
    (∀ parentId childId count p c,
      hfind h parentId = some p → hfind h childId = some c →
      parentId ≠ childId → c.children = [] →
      (∀ x n, Reach h rootId x → hfind h x = some n → n.parent ≠ some childId) →
      layerInv (addChild h parentId childId count).1 rootId) ∧
    (∀ i off t, layerInv (heapInsertText h i off t) rootId) ∧
    (∀ i aOff fOff, layerInv (heapDeleteText h i aOff fOff) rootId) ∧
    (∀ nodes aId fId aOff fOff dir,
      Reach h rootId (if dir = Dir.backward then aId else fId) →
      layerInv (deleteDOMNodes h nodes aId fId aOff fOff dir) rootId) := by
  refine ⟨?_, ?_, ?_, ?_⟩
  · -- attach of a fresh childless node
    intro pid cid cnt p c hp hc hne hleaf href
    have hcne : cid ≠ pid := fun hh => hne hh.symm
    have hp1 : hfind (hset h cid { c with layer := p.layer + 1, parent := some pid }) pid =
        some p :=
      (hfind_hset_ne h cid _ pid hne).trans hp
    have key : (addChild h pid cid cnt).1 =
        hset (hset h cid { c with layer := p.layer + 1, parent := some pid }) pid
          { p with children := p.children ++ [cid] } := by
      simp only [addChild, hp, hc, hp1]
    rw [key]
    have F2 : hfind (hset (hset h cid { c with layer := p.layer + 1, parent := some pid }) pid
        { p with children := p.children ++ [cid] }) cid =
        some { c with layer := p.layer + 1, parent := some pid } := by
      rw [hfind_hset_ne _ pid _ cid hcne]
      exact hfind_hset_self h cid _ c hc
    have F3 : hfind (hset (hset h cid { c with layer := p.layer + 1, parent := some pid }) pid
        { p with children := p.children ++ [cid] }) pid =
        some { p with children := p.children ++ [cid] } :=
      hfind_hset_self _ pid _ p hp1
    have F1 : ∀ j, j ≠ pid → j ≠ cid →
        hfind (hset (hset h cid { c with layer := p.layer + 1, parent := some pid }) pid
          { p with children := p.children ++ [cid] }) j = hfind h j := by
      intro j hjp hjc
      rw [hfind_hset_ne _ pid _ j hjp]
      exact hfind_hset_ne h cid _ j hjc
    intro j hreach hjroot
    by_cases hj : j = cid
    · subst hj
      intro n2 hn2
      rw [F2] at hn2
      cases hn2
      exact ⟨pid, { p with children := p.children ++ [j] }, rfl, F3, rfl⟩
    · have hjr : Reach h rootId j := by
        rcases reach_transport_attach h _ rootId pid cid p hp
            (fun j2 hp2 hc2 => F1 j2 hp2 hc2)
            (fun n2 hn2 => by rw [F3] at hn2; cases hn2; rfl)
            (fun n2 hn2 => by rw [F2] at hn2; cases hn2; exact hleaf)
            j hreach with hr | hr
        · exact hr
        · exact absurd hr hj
      have hOk := hinv j hjr hjroot
      intro n2 hn2
      by_cases hjp : j = pid
      · subst hjp
        rw [F3] at hn2
        cases hn2
        obtain ⟨q, qn, hq, hqn, hl⟩ := hOk p hp
        have hqcid : q ≠ cid := by
          intro hqq
          exact href j p hjr hp (by rw [hq, hqq])
        by_cases hqp : q = j
        · subst hqp
          have hqnp : qn = p := Option.some.inj (hqn.symm.trans hp)
          rw [hqnp] at hl
          omega
        · refine ⟨q, qn, hq, ?_, hl⟩
          rw [F1 q hqp hqcid]
          exact hqn
      · rw [F1 j hjp hj] at hn2
        obtain ⟨q, qn, hq, hqn, hl⟩ := hOk n2 hn2
        have hqcid : q ≠ cid := by
          intro hqq
          exact href j n2 hjr hn2 (by rw [hq, hqq])
        by_cases hqp : q = pid
        · subst hqp
          have hqnp : qn = p := Option.some.inj (hqn.symm.trans hp)
          refine ⟨q, { p with children := p.children ++ [cid] }, hq, F3, ?_⟩
          rw [hl, hqnp]
        · refine ⟨q, qn, hq, ?_, hl⟩
          rw [F1 q hqp hqcid]
          exact hqn
  · -- text insertion
    intro i off t
    cases hn : hfind h i with
    | none =>
      simp only [heapInsertText, hn]
      exact hinv
    | some n =>
      simp only [heapInsertText, hn]
      exact layerInv_set_value h rootId i n _ hn hinv
  · -- single-character (and range) text deletion on one node
    intro i aOff fOff
    cases hn : hfind h i with
    | none =>
      simp only [heapDeleteText, hn]
      exact hinv
    | some n =>
      simp only [heapDeleteText, hn]
      exact layerInv_set_value h rootId i n _ hn hinv
  · -- range delete & merge
    intro nodes aId fId aOff fOff dir hfocus
    cases dir with
    | forward =>
      simp only [if_neg (by decide : ¬ Dir.forward = Dir.backward)] at hfocus
      exact layerInv_core h rootId aId fId aOff fOff hinv hfocus
    | backward =>
      simp only [if_pos rfl] at hfocus
      exact layerInv_core h rootId fId aId fOff aOff hinv hfocus

/-- The heap of the C5 counterexample: a root and two free nodes `a`, `b`,
all constructed at the default layer 0. -/
def hC5 : Heap := [
  ("root", ⟨0, "root".toList, none, []⟩),
  ("a", ⟨0, "A".toList, none, []⟩),
  ("b", ⟨0, "B".toList, none, []⟩)]

/-- The heap after `a.addChild(b)` followed by `root.addChild(a)`: `b` is
reachable with layer 1 under a parent of layer 1. -/
def hC5after : Heap := (addChild (addChild hC5 "a" "b" 0).1 "root" "a" 1).1

/-- C5 counterexample: two legal attaches — `a.addChild(b)` while `a` is
still detached, then `root.addChild(a)` — leave `b` reachable from the root
with `b.layer = 1` while `b.parent.layer + 1 = 2`: `addChild` relayers only
the attached node, never its descendants, so the invariant does not hold
after every mutation. -/
theorem C5_counterexample :
    Reach hC5after "root" "b" ∧ "b" ≠ "root" ∧ ¬ layerOkAt hC5after "b" := by
  refine ⟨?_, by decide, ?_⟩
  · have h1 : Reach hC5after "root" "a" :=
      @Reach.step hC5after "root" "root" "a" ⟨0, "root".toList, none, ["a"]⟩
        Reach.refl (by decide) (by decide)
    exact @Reach.step hC5after "root" "a" "b" ⟨1, "A".toList, some "root", ["b"]⟩
      h1 (by decide) (by decide)
  · intro hok
    obtain ⟨q, qn, hq, hqn, hl⟩ := hok ⟨1, "B".toList, some "a", []⟩ (by decide)
    have hq2 : some "a" = some q := hq
    have hqa : q = "a" := (Option.some.inj hq2).symm
    subst hqa
    have e : hfind hC5after "a" = some ⟨1, "A".toList, some "root", ["b"]⟩ := by decide
    rw [e] at hqn
    have hqn2 : qn = ⟨1, "A".toList, some "root", ["b"]⟩ := (Option.some.inj hqn).symm
    rw [hqn2] at hl
    exact absurd hl (by decide)

/-- The heap of the C5 witness: a root and a freshly constructed childless
node `c1`, not yet attached and referenced by nobody. -/
def hC5w : Heap := [
  ("root", ⟨0, "root".toList, none, []⟩),
  ("c1", ⟨0, "x".toList, none, []⟩)]

/-- On the witness heap only the root is reachable from the root. -/
theorem reach_hC5w (x : String) (hx : Reach hC5w "root" x) : x = "root" := by
  induction hx with
  | refl => rfl
  | @step j c n hr hf hc ih =>
    subst ih
    have e : hfind hC5w "root" = some ⟨0, "root".toList, none, []⟩ := by decide
    rw [e] at hf
    have hn : n = ⟨0, "root".toList, none, []⟩ := (Option.some.inj hf).symm
    rw [hn] at hc
    exact absurd hc (List.not_mem_nil c)

/-- The witness heap satisfies the layer invariant. -/
theorem layerInv_hC5w : layerInv hC5w "root" := by
  intro j hreach hjne
  exact absurd (reach_hC5w j hreach) hjne

/-- No reachable node of the witness heap names `c1` as its parent. -/
theorem noparent_hC5w : ∀ x n, Reach hC5w "root" x → hfind hC5w x = some n →
    n.parent ≠ some "c1" := by
  intro x n hx hn
  rw [reach_hC5w x hx] at hn
  have e : hfind hC5w "root" = some ⟨0, "root".toList, none, []⟩ := by decide
  rw [e] at hn
  have hn2 : n = ⟨0, "root".toList, none, []⟩ := (Option.some.inj hn).symm
  rw [hn2]
  exact by decide

/-- C5 witness: all four mutation conjuncts of the amended invariant
preservation, run on the witness heap. -/
theorem C5_witness :
    layerInv (addChild hC5w "root" "c1" 0).1 "root" ∧
      layerInv (heapInsertText hC5w "root" 0 "x".toList) "root" ∧
      layerInv (heapDeleteText hC5w "root" 1 1) "root" ∧
      layerInv (deleteDOMNodes hC5w [] "c1" "root" 0 0 Dir.forward) "root" :=
  ⟨(C5_amended hC5w "root" layerInv_hC5w).1 "root" "c1" 0
      ⟨0, "root".toList, none, []⟩ ⟨0, "x".toList, none, []⟩
      (by decide) (by decide) (by decide) rfl noparent_hC5w,
    (C5_amended hC5w "root" layerInv_hC5w).2.1 "root" 0 "x".toList,
    (C5_amended hC5w "root" layerInv_hC5w).2.2.1 "root" 1 1,
    (C5_amended hC5w "root" layerInv_hC5w).2.2.2 [] "c1" "root" 0 0 Dir.forward Reach.refl⟩
